import Mathlib

/-!
Verification of the `vars` persistent key-value store (Go package `vars`).

The development shallowly embeds the storage engine of `vars.go`:
Go strings are modelled as `List Char` (Go strings are byte sequences; all
characters relevant to the format are scalar values, and UTF-8 byte order
coincides with codepoint order), the persisted `vars.properties` content is a
`List Char`, the in-memory `map[string]string` is an association list with
unique keys, and the filesystem state backing one (namespace, scope) pair is a
record of "directory exists" and "file content" (`FS`).  Fallible operations
return `Except`.
-/

/-- The character class accepted by Go's `unicode.IsSpace`, used by
`strings.TrimSpace` (`vars.go` trims key and value segments in `load`). -/
def goIsSpace (c : Char) : Bool :=
  c = ' ' || c = '\t' || c = '\n' || c.toNat = 0x0B || c.toNat = 0x0C || c = '\r' ||
  c.toNat = 0x85 || c.toNat = 0xA0 || c.toNat = 0x1680 ||
  (0x2000 ≤ c.toNat && c.toNat ≤ 0x200A) ||
  c.toNat = 0x2028 || c.toNat = 0x2029 || c.toNat = 0x202F ||
  c.toNat = 0x205F || c.toNat = 0x3000

/-- Model of Go `strings.TrimSpace`: remove leading and trailing whitespace. -/
def trimSpace (s : List Char) : List Char :=
  ((s.dropWhile goIsSpace).reverse.dropWhile goIsSpace).reverse

/-- Fueled worker for `replaceAll`.  The fuel only serves to make the
recursion structural (each step consumes at least one character, so fuel
`s.length` is always sufficient); it does not alter the semantics. -/
def replaceAllAux (pat rep : List Char) : Nat → List Char → List Char
  | _, [] => []
  | 0, s => s
  | fuel + 1, c :: rest =>
    if pat.isPrefixOf (c :: rest) ∧ pat ≠ [] then
      rep ++ replaceAllAux pat rep fuel (List.drop (pat.length - 1) rest)
    else
      c :: replaceAllAux pat rep fuel rest

/-- Model of Go `strings.ReplaceAll s pat rep` for non-empty `pat`:
left-to-right, non-overlapping replacement of every occurrence. -/
def replaceAll (pat rep s : List Char) : List Char :=
  replaceAllAux pat rep s.length s

/-- `vars.go` `escape`: `ReplaceAll(ReplaceAll(s, "\n", "\\n"), "\r", "\\r")`. -/
def escape (s : List Char) : List Char :=
  replaceAll ['\r'] ['\\', 'r'] (replaceAll ['\n'] ['\\', 'n'] s)

/-- `vars.go` `unescape`: `ReplaceAll(ReplaceAll(s, "\\n", "\n"), "\\r", "\r")`. -/
def unescape (s : List Char) : List Char :=
  replaceAll ['\\', 'r'] ['\r'] (replaceAll ['\\', 'n'] ['\n'] s)

/-- `hasPair s a b` is true when `s` contains the two-character sequence
`a` immediately followed by `b`. -/
def hasPair : List Char → Char → Char → Bool
  | x :: y :: t, a, b => (x = a && y = b) || hasPair (y :: t) a b
  | _, _, _ => false

/-- Model of Go `strings.SplitN(line, "=", 2)` restricted to the case the
code uses: `some (before, after)` around the first `'='`, `none` if absent. -/
def splitEq : List Char → Option (List Char × List Char)
  | [] => none
  | c :: t =>
    if c = '=' then some ([], t)
    else
      match splitEq t with
      | some (a, b) => some (c :: a, b)
      | none => none

/-- `bufio.ScanLines` drops one trailing carriage return from each line. -/
def dropCR (l : List Char) : List Char :=
  if l.getLast? = some '\r' then l.dropLast else l

/-- Worker for `splitLines`; `acc` holds the current line reversed. -/
def linesAux (acc : List Char) : List Char → List (List Char)
  | [] => [dropCR acc.reverse]
  | c :: rest =>
    if c = '\n' then
      dropCR acc.reverse :: (if rest = [] then [] else linesAux [] rest)
    else
      linesAux (c :: acc) rest

/-- Model of the `bufio.Scanner` line loop in `load`: split on `'\n'`,
drop a trailing `'\r'` per line, no empty token after a final newline,
no token at all for empty input. -/
def splitLines (s : List Char) : List (List Char) :=
  if s = [] then [] else linesAux [] s

/-- The in-memory `map[string]string`, as an association list.  All maps the
code manipulates are built by `setKey`/`delKey` from `[]`, so keys are unique. -/
abbrev VMap := List (List Char × List Char)

/-- Go map update `m[k] = v`: overwrite in place or append. -/
def setKey : VMap → List Char → List Char → VMap
  | [], k, v => [(k, v)]
  | (k', v') :: t, k, v =>
    if k' = k then (k, v) :: t else (k', v') :: setKey t k v

/-- Go map deletion `delete(m, k)`. -/
def delKey : VMap → List Char → VMap
  | [], _ => []
  | (k', v') :: t, k => if k' = k then t else (k', v') :: delKey t k

/-- Go map read `m[k]` (with presence flag), as an `Option`. -/
def lookupV : VMap → List Char → Option (List Char)
  | [], _ => none
  | (k', v') :: t, k => if k' = k then some v' else lookupV t k

/-- One iteration of the scanner loop in `vars.go` `load`: skip comment
lines (`strings.HasPrefix(line, "#")`) and lines blank after trimming; split
the rest on the first `'='` (silently skipping lines without one); trim both
segments, unescape the value, and store the binding. -/
def parseLine (m : VMap) (line : List Char) : VMap :=
  if line.head? = some '#' ∨ trimSpace line = [] then m
  else
    match splitEq line with
    | some (a, b) => setKey m (trimSpace a) (unescape (trimSpace b))
    | none => m

/-- The scanner loop of `load` over a list of lines. -/
def loadLines (ls : List (List Char)) : VMap :=
  ls.foldl parseLine []

/-- `vars.go` `load`, restricted to its parsing part: the mapping read from
the raw bytes of `vars.properties`. -/
def parseProps (content : List Char) : VMap :=
  loadLines (splitLines content)

/-- Go string comparison (`sort.Strings` order): lexicographic. On Unicode
scalar values codepoint order equals UTF-8 byte order, so comparing
characters is faithful to Go's bytewise comparison. -/
def strLe : List Char → List Char → Bool
  | [], _ => true
  | _ :: _, [] => false
  | a :: s, b :: t =>
    if a < b then true
    else if b < a then false
    else strLe s t

/-- `strLe` as a relation, for use with `List.insertionSort`. -/
def StrLeR (a b : List Char) : Prop := strLe a b = true

instance : DecidableRel StrLeR := fun a b =>
  inferInstanceAs (Decidable (strLe a b = true))

/-- The sorted key slice built in `vars.go` `save` (`sort.Strings(keys)`).
`sort.Strings` is modelled by insertion sort: on a list whose elements it
reorders only by the total order `strLe`, any correct sort produces the same
list (ties are between equal strings), so the choice of algorithm is
semantically irrelevant. -/
def sortKeys (m : VMap) : List (List Char) :=
  List.insertionSort StrLeR (m.map Prod.fst)

/-- `vars.go` `save`: write `key=escape(value)\n` per entry into a buffer,
keys in sorted order.  `(lookupV m k).getD []` models the map read `data[k]`,
which always succeeds since `k` ranges over the keys of `data`. -/
def save (m : VMap) : List Char :=
  (sortKeys m).foldl (fun buf k => buf ++ (k ++ '=' :: escape ((lookupV m k).getD []) ++ ['\n'])) []

/-- The filesystem state backing one (namespace, scope) pair: whether the
backing directory exists, and the content of `vars.properties` if present. -/
structure FS where
  dirExists : Bool
  file : Option (List Char)
deriving DecidableEq

deriving instance DecidableEq for Except

/-- Error values produced by the store operations (kinds, not messages). -/
inductive VarsErr where
  | emptyNamespace
  | invalidNamespace
  | invalidScope
  | stateDirFailed
  | notInitializedDir
  | notInitializedFile
  | keyNotFound (k : List Char)
deriving DecidableEq

/-- Go's `os.IsNotExist` on the errors `load` can return.  `root()` replaces
the `os.OpenRoot` not-exist error with a fresh `fmt.Errorf("vars not
initialized ...")`, and `load` replaces the `root.Open` not-exist error with
a fresh `fmt.Errorf("vars has not been initialized")`; neither fresh error
wraps the original, so `os.IsNotExist` reports false on every error `load`
yields. -/
def osIsNotExist : VarsErr → Bool := fun _ => false

/-- `vars.go` `load` including its filesystem checks: Go returns the pair
`(map, error)`, where a missing file yields a non-nil empty map together
with a non-nil error, and a missing directory yields a nil map and an error. -/
def loadOp (fs : FS) : Option VMap × Option VarsErr :=
  if fs.dirExists then
    match fs.file with
    | some content => (some (parseProps content), none)
    | none => (some [], some .notInitializedFile)
  else (none, some .notInitializedDir)

/-- `vars.go` `Get`. -/
def getOp (fs : FS) (k : List Char) : Except VarsErr (List Char) :=
  match loadOp fs with
  | (_, some e) => .error e
  | (m?, none) =>
    match lookupV (m?.getD []) k with
    | some v => .ok v
    | none => .error (.keyNotFound k)

/-- `vars.go` `Set`: load, tolerate only errors for which `os.IsNotExist`
holds (none do, see `osIsNotExist`), fall back to an empty map if the loaded
map is nil, insert, save. -/
def setOp (fs : FS) (k v : List Char) : Except VarsErr FS :=
  match loadOp fs with
  | (m?, some e) =>
    if osIsNotExist e = false then .error e
    else .ok { fs with file := some (save (setKey (m?.getD []) k v)) }
  | (m?, none) => .ok { fs with file := some (save (setKey (m?.getD []) k v)) }

/-- `vars.go` `Unset`: load (propagating any error), delete, save. -/
def unsetOp (fs : FS) (k : List Char) : Except VarsErr FS :=
  match loadOp fs with
  | (_, some e) => .error e
  | (m?, none) => .ok { fs with file := some (save (delKey (m?.getD []) k)) }

/-- `vars.go` `All`: load and return the mapping. -/
def allOp (fs : FS) : Except VarsErr VMap :=
  match loadOp fs with
  | (_, some e) => .error e
  | (m?, none) => .ok (m?.getD [])

/-- `vars.go` `Init` on a store whose path resolves: `os.MkdirAll` then
`OpenFile(..., O_RDONLY|O_CREATE, ...)` — create the directory, create the
file empty if missing, leave existing content untouched. -/
def initOp (fs : FS) : FS :=
  { dirExists := true, file := some (fs.file.getD []) }

/-- A character of the class `[a-zA-Z0-9._-]` of `validNameRegex`. -/
def validNameChar (c : Char) : Bool :=
  ('a' ≤ c && c ≤ 'z') || ('A' ≤ c && c ≤ 'Z') || ('0' ≤ c && c ≤ '9') ||
  c = '.' || c = '_' || c = '-'

/-- `validNameRegex.MatchString`: `^[a-zA-Z0-9._-]+$`. -/
def validName (s : List Char) : Bool :=
  !s.isEmpty && s.all validNameChar

/-- `vars.go` `basePath`.  The state-root resolution (`v.stateDir`) is passed
in as `stateDir` (`none` models its failure); `filepath.Join(root, ns, scope)`
with the validated inputs is the plain separator-joined path, the scope
segment omitted when the scope is empty. -/
def basePath (ns scope : List Char) (stateDir : Option (List Char)) :
    Except VarsErr (List Char) :=
  if ns = [] then .error .emptyNamespace
  else if ¬ validName ns then .error .invalidNamespace
  else if scope ≠ [] ∧ ('/' ∈ scope ∨ '\\' ∈ scope) then .error .invalidScope
  else if scope ≠ [] ∧ ¬ validName scope then .error .invalidScope
  else
    match stateDir with
    | none => .error .stateDirFailed
    | some root =>
      .ok (root ++ '/' :: ns ++ (if scope = [] then [] else '/' :: scope))

/-- A constructed store handle: immutable namespace and scope fields. -/
structure VarsHandle where
  ns : List Char
  scope : List Char
deriving DecidableEq

/-- `vars.go` `New`: variadic scope; more than one scope token panics
(modelled as `none`), otherwise the handle is returned with the single scope
token (or the empty scope). -/
def newVars (ns : List Char) (scopeArgs : List (List Char)) : Option VarsHandle :=
  if scopeArgs.length > 1 then none
  else some { ns := ns, scope := scopeArgs.headD [] }

/-! ### Properties of `replaceAll`, `escape`, `unescape` -/

theorem replaceAllAux_fuel (pat rep : List Char) :
    ∀ f₁ f₂ s, s.length ≤ f₁ → s.length ≤ f₂ →
      replaceAllAux pat rep f₁ s = replaceAllAux pat rep f₂ s := by
  intro f₁
  induction f₁ with
  | zero =>
    intro f₂ s h₁ _
    have : s = [] := List.length_eq_zero.mp (Nat.le_zero.mp h₁)
    subst this
    cases f₂ <;> rfl
  | succ n ih =>
    intro f₂ s h₁ h₂
    cases s with
    | nil => cases f₂ <;> rfl
    | cons c rest =>
      cases f₂ with
      | zero => simp at h₂
      | succ m =>
        have hr₁ : rest.length ≤ n := by simpa using h₁
        have hr₂ : rest.length ≤ m := by simpa using h₂
        simp only [replaceAllAux]
        split
        · have hd₁ : (List.drop (pat.length - 1) rest).length ≤ n := by
            simp only [List.length_drop]; omega
          have hd₂ : (List.drop (pat.length - 1) rest).length ≤ m := by
            simp only [List.length_drop]; omega
          rw [ih m (List.drop (pat.length - 1) rest) hd₁ hd₂]
        · rw [ih m rest hr₁ hr₂]

theorem replaceAll_cons_pos (pat rep : List Char) (c : Char) (rest : List Char)
    (h : pat.isPrefixOf (c :: rest)) (hne : pat ≠ []) :
    replaceAll pat rep (c :: rest) =
      rep ++ replaceAll pat rep (List.drop (pat.length - 1) rest) := by
  show replaceAllAux pat rep (c :: rest).length (c :: rest) = _
  simp only [List.length_cons, replaceAllAux, if_pos (And.intro h hne)]
  rw [replaceAllAux_fuel pat rep rest.length (List.drop (pat.length - 1) rest).length
    (List.drop (pat.length - 1) rest) (by simp only [List.length_drop]; omega) (Nat.le_refl _)]
  rfl

theorem replaceAll_cons_neg (pat rep : List Char) (c : Char) (rest : List Char)
    (h : ¬ pat.isPrefixOf (c :: rest)) :
    replaceAll pat rep (c :: rest) = c :: replaceAll pat rep rest := by
  show replaceAllAux pat rep (c :: rest).length (c :: rest) = _
  simp only [List.length_cons, replaceAllAux]
  rw [if_neg (fun hc => h hc.1)]
  rfl

theorem replaceAll_single (a : Char) (rep : List Char) :
    ∀ s, replaceAll [a] rep s = s.flatMap (fun c => if c = a then rep else [c]) := by
  intro s
  induction s with
  | nil => rfl
  | cons c rest ih =>
    by_cases hc : c = a
    · subst hc
      rw [replaceAll_cons_pos [c] rep c rest (by simp [List.isPrefixOf]) (by simp)]
      simp [ih]
    · rw [replaceAll_cons_neg [a] rep c rest (by simp [List.isPrefixOf, Ne.symm hc])]
      simp [ih, hc]

/-- Per-character action of `escape`. -/
def escChar (c : Char) : List Char :=
  if c = '\n' then ['\\', 'n'] else if c = '\r' then ['\\', 'r'] else [c]

/-- Per-character action remaining after the `\n`-direction of `unescape`
has been undone. -/
def escCR (c : Char) : List Char :=
  if c = '\r' then ['\\', 'r'] else [c]

theorem escape_eq_flatMap (s : List Char) : escape s = s.flatMap escChar := by
  unfold escape
  rw [replaceAll_single, replaceAll_single]
  induction s with
  | nil => rfl
  | cons c t ih =>
    rw [List.flatMap_cons, List.flatMap_append, ih, List.flatMap_cons]
    congr 1
    by_cases h1 : c = '\n'
    · subst h1; simp [escChar]
    · by_cases h2 : c = '\r'
      · subst h2; simp [escChar]
      · simp [escChar, h1, h2]

theorem escape_no_ctl (s : List Char) : '\n' ∉ escape s ∧ '\r' ∉ escape s := by
  rw [escape_eq_flatMap]
  constructor <;>
  · intro hmem
    rcases List.mem_flatMap.mp hmem with ⟨x, _, hx⟩
    by_cases h1 : x = '\n'
    · subst h1; revert hx; decide
    · by_cases h2 : x = '\r'
      · subst h2; revert hx; decide
      · rw [show escChar x = [x] from by simp [escChar, h1, h2]] at hx
        rw [List.mem_singleton] at hx
        first
        | exact h1 hx.symm
        | exact h2 hx.symm

theorem hasPair_cons_false {a b x : Char} {t : List Char}
    (h : hasPair (x :: t) a b = false) : hasPair t a b = false := by
  cases t with
  | nil => rfl
  | cons y t' =>
    simp only [hasPair, Bool.or_eq_false_iff] at h
    exact h.2

theorem unesc_n_escape : ∀ s : List Char, hasPair s '\\' 'n' = false →
    replaceAll ['\\', 'n'] ['\n'] (s.flatMap escChar) = s.flatMap escCR := by
  intro s
  induction s with
  | nil => intro _; rfl
  | cons c t ih =>
    intro h
    have ht := hasPair_cons_false h
    rw [List.flatMap_cons, List.flatMap_cons]
    by_cases h1 : c = '\n'
    · subst h1
      have he : escChar '\n' = ['\\', 'n'] := by simp [escChar]
      rw [he]
      rw [show ('\\' :: 'n' :: []) ++ t.flatMap escChar = '\\' :: 'n' :: t.flatMap escChar from rfl]
      rw [replaceAll_cons_pos _ _ _ _ (by simp [List.isPrefixOf]) (by simp)]
      simp only [List.length_cons, List.length_nil, List.drop_succ_cons, List.drop_zero]
      rw [ih ht]
      simp [escCR]
    · by_cases h2 : c = '\r'
      · subst h2
        have he : escChar '\r' = ['\\', 'r'] := by simp [escChar]
        rw [he]
        rw [show ('\\' :: 'r' :: []) ++ t.flatMap escChar = '\\' :: 'r' :: t.flatMap escChar from rfl]
        rw [replaceAll_cons_neg _ _ _ _ (by simp [List.isPrefixOf])]
        rw [replaceAll_cons_neg _ _ _ _ (by simp [List.isPrefixOf])]
        rw [ih ht]
        simp [escCR]
      · have he : escChar c = [c] := by simp [escChar, h1, h2]
        rw [he]
        rw [show [c] ++ t.flatMap escChar = c :: t.flatMap escChar from rfl]
        by_cases hbs : c = '\\'
        · subst hbs
          have hnm : ¬ (['\\', 'n'].isPrefixOf ('\\' :: t.flatMap escChar)) := by
            cases t with
            | nil => simp [List.isPrefixOf]
            | cons d t' =>
              have hd : d ≠ 'n' := by
                intro hd; subst hd
                simp [hasPair] at h
              rw [List.flatMap_cons]
              by_cases hd1 : d = '\n'
              · subst hd1; simp [escChar, List.isPrefixOf]
              · by_cases hd2 : d = '\r'
                · subst hd2; simp [escChar, List.isPrefixOf]
                · simp [escChar, hd1, hd2, List.isPrefixOf, Ne.symm hd]
          rw [replaceAll_cons_neg _ _ _ _ hnm, ih ht]
          simp [escCR]
        · rw [replaceAll_cons_neg _ _ _ _ (by simp [List.isPrefixOf, Ne.symm hbs])]
          rw [ih ht]
          simp [escCR, h2]

theorem unesc_r_escCR : ∀ s : List Char, hasPair s '\\' 'r' = false →
    replaceAll ['\\', 'r'] ['\r'] (s.flatMap escCR) = s := by
  intro s
  induction s with
  | nil => intro _; rfl
  | cons c t ih =>
    intro h
    have ht := hasPair_cons_false h
    rw [List.flatMap_cons]
    by_cases h1 : c = '\r'
    · subst h1
      have he : escCR '\r' = ['\\', 'r'] := by simp [escCR]
      rw [he]
      rw [show ('\\' :: 'r' :: []) ++ t.flatMap escCR = '\\' :: 'r' :: t.flatMap escCR from rfl]
      rw [replaceAll_cons_pos _ _ _ _ (by simp [List.isPrefixOf]) (by simp)]
      simp only [List.length_cons, List.length_nil, List.drop_succ_cons, List.drop_zero]
      rw [ih ht]
      rfl
    · have he : escCR c = [c] := by simp [escCR, h1]
      rw [he]
      rw [show [c] ++ t.flatMap escCR = c :: t.flatMap escCR from rfl]
      by_cases hbs : c = '\\'
      · subst hbs
        have hnm : ¬ (['\\', 'r'].isPrefixOf ('\\' :: t.flatMap escCR)) := by
          cases t with
          | nil => simp [List.isPrefixOf]
          | cons d t' =>
            have hd : d ≠ 'r' := by
              intro hd; subst hd
              simp [hasPair] at h
            rw [List.flatMap_cons]
            by_cases hd1 : d = '\r'
            · subst hd1; simp [escCR, List.isPrefixOf]
            · simp [escCR, hd1, List.isPrefixOf, Ne.symm hd]
        rw [replaceAll_cons_neg _ _ _ _ hnm, ih ht]
      · rw [replaceAll_cons_neg _ _ _ _ (by simp [List.isPrefixOf, Ne.symm hbs])]
        rw [ih ht]

theorem unescape_escape (s : List Char) (hn : hasPair s '\\' 'n' = false)
    (hr : hasPair s '\\' 'r' = false) : unescape (escape s) = s := by
  unfold unescape
  rw [escape_eq_flatMap, unesc_n_escape s hn, unesc_r_escCR s hr]

/-! ### Properties of `trimSpace` -/

theorem head?_dropWhile_false {p : Char → Bool} :
    ∀ {l : List Char} {c : Char}, (l.dropWhile p).head? = some c → p c = false := by
  intro l
  induction l with
  | nil => intro c h; simp [List.dropWhile] at h
  | cons x t ih =>
    intro c h
    rw [List.dropWhile_cons] at h
    by_cases hx : p x
    · rw [if_pos hx] at h; exact ih h
    · rw [if_neg hx] at h
      simp only [List.head?_cons, Option.some.injEq] at h
      subst h
      exact Bool.eq_false_iff.mpr hx

theorem dropWhile_eq_self_of_head {p : Char → Bool} {l : List Char} {c : Char}
    (hh : l.head? = some c) (hc : p c = false) : l.dropWhile p = l := by
  cases l with
  | nil => simp at hh
  | cons x t =>
    simp only [List.head?_cons, Option.some.injEq] at hh
    subst hh
    rw [List.dropWhile_cons, if_neg (by simp [hc])]

theorem mem_trimSpace {s : List Char} {c : Char} (h : c ∈ trimSpace s) : c ∈ s := by
  unfold trimSpace at h
  rw [List.mem_reverse] at h
  have h1 := (List.dropWhile_sublist (l := (s.dropWhile goIsSpace).reverse) goIsSpace).subset h
  rw [List.mem_reverse] at h1
  exact (List.dropWhile_sublist goIsSpace).subset h1

theorem trimSpace_eq_nil_iff {s : List Char} :
    trimSpace s = [] ↔ ∀ c ∈ s, goIsSpace c = true := by
  unfold trimSpace
  rw [List.reverse_eq_nil_iff, List.dropWhile_eq_nil_iff]
  constructor
  · intro h c hc
    have hsplit := List.takeWhile_append_dropWhile (p := goIsSpace) (l := s)
    rw [← hsplit] at hc
    rcases List.mem_append.mp hc with h1 | h1
    · exact List.mem_takeWhile_imp h1
    · exact h c (List.mem_reverse.mpr h1)
  · intro h c hc
    rw [List.mem_reverse] at hc
    exact h c ((List.dropWhile_sublist goIsSpace).subset hc)

theorem trimSpace_ne_nil {s : List Char} {c : Char} (hc : c ∈ s)
    (hns : goIsSpace c = false) : trimSpace s ≠ [] := by
  intro h
  rw [trimSpace_eq_nil_iff] at h
  rw [h c hc] at hns
  exact Bool.true_eq_false.mp hns

theorem head?_trimSpace_false {s : List Char} {c : Char}
    (h : (trimSpace s).head? = some c) : goIsSpace c = false := by
  unfold trimSpace at h
  set z := (s.dropWhile goIsSpace).reverse.dropWhile goIsSpace with hz
  have hpre : z.reverse <+: (s.dropWhile goIsSpace) := by
    rw [← List.reverse_reverse (s.dropWhile goIsSpace)]
    exact List.reverse_prefix.mpr (List.dropWhile_suffix goIsSpace)
  rcases hpre with ⟨t, ht⟩
  cases hzz : z.reverse with
  | nil => rw [hzz] at h; simp at h
  | cons a b =>
    rw [hzz] at h ht
    simp only [List.head?_cons, Option.some.injEq] at h
    have : (s.dropWhile goIsSpace).head? = some c := by
      rw [← ht, List.cons_append, List.head?_cons, h]
    exact head?_dropWhile_false this

theorem getLast?_trimSpace_false {s : List Char} {c : Char}
    (h : (trimSpace s).getLast? = some c) : goIsSpace c = false := by
  unfold trimSpace at h
  rw [List.getLast?_reverse] at h
  exact head?_dropWhile_false h

theorem trimSpace_trimSpace (s : List Char) :
    trimSpace (trimSpace s) = trimSpace s := by
  by_cases hnil : trimSpace s = []
  · rw [hnil]; rfl
  · have hhead : ∃ a, (trimSpace s).head? = some a := by
      cases h : (trimSpace s).head? with
      | none => exact absurd (List.head?_eq_none_iff.mp h) hnil
      | some a => exact ⟨a, rfl⟩
    rcases hhead with ⟨a, hhead⟩
    have h1 : (trimSpace s).dropWhile goIsSpace = trimSpace s :=
      dropWhile_eq_self_of_head hhead (head?_trimSpace_false hhead)
    have hlast : ∃ c, (trimSpace s).getLast? = some c := by
      cases h : (trimSpace s).getLast? with
      | none => exact absurd (List.getLast?_eq_none_iff.mp h) hnil
      | some c => exact ⟨c, rfl⟩
    rcases hlast with ⟨c, hc⟩
    have h2 : (trimSpace s).reverse.dropWhile goIsSpace = (trimSpace s).reverse := by
      apply dropWhile_eq_self_of_head (c := c)
      · rw [List.head?_reverse]; exact hc
      · exact getLast?_trimSpace_false hc
    calc trimSpace (trimSpace s)
        = (((trimSpace s).dropWhile goIsSpace).reverse.dropWhile goIsSpace).reverse := rfl
      _ = trimSpace s := by rw [h1, h2, List.reverse_reverse]

/-! ### Properties of `splitEq` -/

theorem splitEq_append {q : List Char} (w : List Char) (hq : '=' ∉ q) :
    splitEq (q ++ '=' :: w) = some (q, w) := by
  induction q with
  | nil => simp [splitEq]
  | cons c t ih =>
    have hc : c ≠ '=' := fun h => hq (h ▸ List.mem_cons_self c t)
    have ht : '=' ∉ t := fun h => hq (List.mem_cons_of_mem c h)
    rw [List.cons_append]
    rw [show splitEq (c :: (t ++ '=' :: w)) =
      (if c = '=' then some (([] : List Char), t ++ '=' :: w)
       else match splitEq (t ++ '=' :: w) with
            | some (a, b) => some (c :: a, b)
            | none => none) from rfl]
    rw [if_neg hc, ih ht]

theorem splitEq_some {s a b : List Char} (h : splitEq s = some (a, b)) :
    '=' ∉ a ∧ s = a ++ '=' :: b := by
  induction s generalizing a b with
  | nil => simp [splitEq] at h
  | cons c t ih =>
    simp only [splitEq] at h
    by_cases hc : c = '='
    · rw [if_pos hc] at h
      simp only [Option.some.injEq, Prod.mk.injEq] at h
      rw [← h.1, ← h.2, hc]
      exact ⟨List.not_mem_nil _, rfl⟩
    · rw [if_neg hc] at h
      cases hs : splitEq t with
      | none => rw [hs] at h; simp at h
      | some p =>
        rcases p with ⟨a', b'⟩
        rw [hs] at h
        simp only [Option.some.injEq, Prod.mk.injEq] at h
        rcases ih hs with ⟨hna, hteq⟩
        rw [← h.1, ← h.2]
        constructor
        · intro hmem
          rcases List.mem_cons.mp hmem with h1 | h1
          · exact hc h1.symm
          · exact hna h1
        · rw [List.cons_append, hteq]

theorem splitEq_none {s : List Char} (h : '=' ∉ s) : splitEq s = none := by
  induction s with
  | nil => rfl
  | cons c t ih =>
    have hc : c ≠ '=' := fun hh => h (hh ▸ List.mem_cons_self c t)
    have ht : '=' ∉ t := fun hh => h (List.mem_cons_of_mem c hh)
    simp only [splitEq, if_neg hc, ih ht]

/-! ### Properties of `splitLines` -/

theorem mem_dropCR {l : List Char} {c : Char} (h : c ∈ dropCR l) : c ∈ l := by
  unfold dropCR at h
  split at h
  · exact (List.dropLast_sublist l).subset h
  · exact h

theorem dropCR_eq_self {l : List Char} (h : l.getLast? ≠ some '\r') : dropCR l = l := by
  unfold dropCR
  rw [if_neg h]

theorem linesAux_append {l : List Char} (hnl : '\n' ∉ l) :
    ∀ acc rest, linesAux acc (l ++ '\n' :: rest) =
      dropCR (acc.reverse ++ l) :: (if rest = [] then [] else linesAux [] rest) := by
  induction l with
  | nil =>
    intro acc rest
    show linesAux acc ('\n' :: rest) =
      dropCR (acc.reverse ++ []) :: (if rest = [] then [] else linesAux [] rest)
    rw [List.append_nil]
    simp [linesAux]
  | cons c t ih =>
    intro acc rest
    have hc : c ≠ '\n' := fun h => hnl (h ▸ List.mem_cons_self c t)
    have ht : '\n' ∉ t := fun h => hnl (List.mem_cons_of_mem c h)
    show linesAux acc (c :: (t ++ '\n' :: rest)) = _
    simp only [linesAux, if_neg hc]
    rw [ih ht (c :: acc) rest]
    simp

theorem splitLines_cons_line {l : List Char} (hnl : '\n' ∉ l) (rest : List Char) :
    splitLines ((l ++ ['\n']) ++ rest) = dropCR l :: splitLines rest := by
  have hne : (l ++ ['\n']) ++ rest ≠ [] := by simp
  unfold splitLines
  rw [if_neg hne]
  rw [show (l ++ ['\n']) ++ rest = l ++ '\n' :: rest by simp]
  rw [linesAux_append hnl [] rest]
  simp

theorem splitLines_flat :
    ∀ lines : List (List Char), (∀ l ∈ lines, '\n' ∉ l ∧ l.getLast? ≠ some '\r') →
      splitLines (lines.flatMap (fun l => l ++ ['\n'])) = lines := by
  intro lines
  induction lines with
  | nil => intro _; rfl
  | cons l rest ih =>
    intro h
    rw [List.flatMap_cons]
    rcases h l (List.mem_cons_self l rest) with ⟨hnl, hcr⟩
    rw [splitLines_cons_line hnl, dropCR_eq_self hcr,
      ih (fun x hx => h x (List.mem_cons_of_mem l hx))]

theorem linesAux_no_newline :
    ∀ (s acc : List Char), '\n' ∉ acc → ∀ l ∈ linesAux acc s, '\n' ∉ l := by
  intro s
  induction s with
  | nil =>
    intro acc hacc l hl
    simp only [linesAux, List.mem_singleton] at hl
    subst hl
    intro hmem
    exact hacc (List.mem_reverse.mp (mem_dropCR hmem))
  | cons c rest ih =>
    intro acc hacc l hl
    by_cases hc : c = '\n'
    · rw [show linesAux acc (c :: rest) = dropCR acc.reverse ::
        (if rest = [] then [] else linesAux [] rest) by simp [linesAux, hc]] at hl
      rcases List.mem_cons.mp hl with h1 | h1
      · subst h1
        intro hmem
        exact hacc (List.mem_reverse.mp (mem_dropCR hmem))
      · split at h1
        · simp at h1
        · exact ih [] (List.not_mem_nil _) l h1
    · rw [show linesAux acc (c :: rest) = linesAux (c :: acc) rest by
        simp [linesAux, hc]] at hl
      have : '\n' ∉ c :: acc := by
        intro hmem
        rcases List.mem_cons.mp hmem with h1 | h1
        · exact hc h1.symm
        · exact hacc h1
      exact ih (c :: acc) this l hl

theorem splitLines_no_newline {s l : List Char} (h : l ∈ splitLines s) : '\n' ∉ l := by
  unfold splitLines at h
  split at h
  · simp at h
  · exact linesAux_no_newline s [] (List.not_mem_nil _) l h

/-! ### Properties of the map operations -/

/-- All maps the store manipulates have pairwise-distinct keys. -/
def nodupKeys (m : VMap) : Prop := (m.map Prod.fst).Nodup

theorem lookupV_setKey_self (m : VMap) (k v : List Char) :
    lookupV (setKey m k v) k = some v := by
  induction m with
  | nil => simp [setKey, lookupV]
  | cons p t ih =>
    rcases p with ⟨k', v'⟩
    by_cases h : k' = k
    · simp [setKey, if_pos h, lookupV]
    · simp [setKey, h, lookupV, ih]

theorem lookupV_setKey_ne (m : VMap) (k v k' : List Char) (h : k' ≠ k) :
    lookupV (setKey m k v) k' = lookupV m k' := by
  induction m with
  | nil => simp [setKey, lookupV, Ne.symm h]
  | cons p t ih =>
    rcases p with ⟨k'', v''⟩
    by_cases hk : k'' = k
    · subst hk
      simp only [setKey, if_pos rfl, lookupV]
      rw [if_neg (Ne.symm h), if_neg (fun hh => h hh.symm)]
    · simp only [setKey, if_neg hk, lookupV]
      by_cases hk' : k'' = k'
      · rw [if_pos hk', if_pos hk']
      · rw [if_neg hk', if_neg hk', ih]

theorem setKey_of_lookup_none {m : VMap} {k : List Char} (v : List Char)
    (h : lookupV m k = none) : setKey m k v = m ++ [(k, v)] := by
  induction m with
  | nil => rfl
  | cons p t ih =>
    rcases p with ⟨k', v'⟩
    simp only [lookupV] at h
    by_cases hk : k' = k
    · rw [if_pos hk] at h; simp at h
    · rw [if_neg hk] at h
      simp only [setKey, if_neg hk, List.cons_append, ih h]

theorem keys_setKey_of_lookup_some {m : VMap} {k w : List Char} (v : List Char)
    (h : lookupV m k = some w) : (setKey m k v).map Prod.fst = m.map Prod.fst := by
  induction m with
  | nil => simp [lookupV] at h
  | cons p t ih =>
    rcases p with ⟨k', v'⟩
    simp only [lookupV] at h
    by_cases hk : k' = k
    · simp [setKey, if_pos hk, hk]
    · rw [if_neg hk] at h
      simp only [setKey, if_neg hk, List.map_cons, ih h]

theorem mem_setKey {m : VMap} {k v : List Char} {p : List Char × List Char}
    (h : p ∈ setKey m k v) : p ∈ m ∨ p = (k, v) := by
  induction m with
  | nil => simp [setKey] at h; right; exact h
  | cons q t ih =>
    rcases q with ⟨k', v'⟩
    by_cases hk : k' = k
    · rw [show setKey ((k', v') :: t) k v = (k, v) :: t by simp [setKey, hk]] at h
      rcases List.mem_cons.mp h with h1 | h1
      · right; exact h1
      · left; exact List.mem_cons_of_mem _ h1
    · rw [show setKey ((k', v') :: t) k v = (k', v') :: setKey t k v by
        simp [setKey, hk]] at h
      rcases List.mem_cons.mp h with h1 | h1
      · left; exact h1 ▸ List.mem_cons_self _ _
      · rcases ih h1 with h2 | h2
        · left; exact List.mem_cons_of_mem _ h2
        · right; exact h2

theorem mem_keys_iff_lookup {m : VMap} {k : List Char} :
    k ∈ m.map Prod.fst ↔ (lookupV m k).isSome := by
  induction m with
  | nil => simp [lookupV]
  | cons p t ih =>
    rcases p with ⟨k', v'⟩
    simp only [List.map_cons, List.mem_cons, lookupV]
    by_cases hk : k' = k
    · simp [hk]
    · rw [if_neg hk]
      simp only [ih]
      constructor
      · intro h
        rcases h with h | h
        · exact absurd h.symm hk
        · exact h
      · intro h; right; exact h

theorem lookup_none_of_not_mem {m : VMap} {k : List Char}
    (h : k ∉ m.map Prod.fst) : lookupV m k = none := by
  cases hl : lookupV m k with
  | none => rfl
  | some w =>
    exact absurd (mem_keys_iff_lookup.mpr (by rw [hl]; rfl)) h

theorem nodupKeys_setKey {m : VMap} (k v : List Char) (h : nodupKeys m) :
    nodupKeys (setKey m k v) := by
  unfold nodupKeys
  cases hl : lookupV m k with
  | some w => rw [keys_setKey_of_lookup_some v hl]; exact h
  | none =>
    rw [setKey_of_lookup_none v hl, List.map_append]
    simp only [List.map_cons, List.map_nil]
    rw [List.nodup_append]
    refine ⟨h, List.nodup_singleton _, ?_⟩
    intro a ha hb
    simp only [List.mem_singleton] at hb
    subst hb
    exact absurd (mem_keys_iff_lookup.mp ha) (by rw [hl]; simp)

theorem length_setKey_of_lookup_none {m : VMap} {k : List Char} (v : List Char)
    (h : lookupV m k = none) : (setKey m k v).length = m.length + 1 := by
  rw [setKey_of_lookup_none v h, List.length_append, List.length_cons, List.length_nil]

theorem delKey_of_lookup_none {m : VMap} {k : List Char}
    (h : lookupV m k = none) : delKey m k = m := by
  induction m with
  | nil => rfl
  | cons p t ih =>
    rcases p with ⟨k', v'⟩
    simp only [lookupV] at h
    by_cases hk : k' = k
    · rw [if_pos hk] at h; simp at h
    · rw [if_neg hk] at h
      simp only [delKey, if_neg hk, ih h]

theorem lookupV_delKey_ne (m : VMap) (k k' : List Char) (h : k' ≠ k) :
    lookupV (delKey m k) k' = lookupV m k' := by
  induction m with
  | nil => rfl
  | cons p t ih =>
    rcases p with ⟨k'', v''⟩
    by_cases hk : k'' = k
    · rw [show delKey ((k'', v'') :: t) k = t from by simp [delKey, hk]]
      rw [show lookupV ((k'', v'') :: t) k' =
        (if k'' = k' then some v'' else lookupV t k') from rfl]
      rw [if_neg (fun hh => h (hh.symm.trans hk))]
    · rw [show delKey ((k'', v'') :: t) k = (k'', v'') :: delKey t k from by
        simp [delKey, hk]]
      rw [show lookupV ((k'', v'') :: delKey t k) k' =
        (if k'' = k' then some v'' else lookupV (delKey t k) k') from rfl]
      rw [show lookupV ((k'', v'') :: t) k' =
        (if k'' = k' then some v'' else lookupV t k') from rfl]
      by_cases hk' : k'' = k'
      · rw [if_pos hk', if_pos hk']
      · rw [if_neg hk', if_neg hk', ih]

theorem lookupV_append (m₁ m₂ : VMap) (k : List Char) :
    lookupV (m₁ ++ m₂) k = (lookupV m₁ k).or (lookupV m₂ k) := by
  induction m₁ with
  | nil => simp [lookupV]
  | cons p t ih =>
    rcases p with ⟨k', v'⟩
    simp only [List.cons_append, lookupV]
    by_cases hk : k' = k
    · rw [if_pos hk, if_pos hk]; rfl
    · rw [if_neg hk, if_neg hk]
      exact ih

theorem lookupV_map_pair {ks : List (List Char)} {k : List Char}
    (f : List Char → List Char) (h : k ∈ ks) :
    lookupV (ks.map (fun q => (q, f q))) k = some (f k) := by
  induction ks with
  | nil => simp at h
  | cons q t ih =>
    simp only [List.map_cons, lookupV]
    by_cases hq : q = k
    · rw [if_pos hq, hq]
    · rw [if_neg hq]
      exact ih (List.mem_cons.mp h |>.resolve_left (fun hh => hq hh.symm))

/-! ### The lexicographic order used by `save` -/

theorem strLe_cons (x y : Char) (s t : List Char) :
    strLe (x :: s) (y :: t) =
      if x < y then true else if y < x then false else strLe s t := rfl

theorem strLe_total : ∀ a b : List Char, strLe a b = true ∨ strLe b a = true := by
  intro a
  induction a with
  | nil => intro b; left; rfl
  | cons x s ih =>
    intro b
    cases b with
    | nil => right; rfl
    | cons y t =>
      rw [strLe_cons, strLe_cons]
      rcases lt_trichotomy x y with h | h | h
      · left; rw [if_pos h]
      · subst h
        simp only [if_neg (lt_irrefl x)]
        exact ih t
      · right; rw [if_pos h]

theorem strLe_antisymm : ∀ a b : List Char,
    strLe a b = true → strLe b a = true → a = b := by
  intro a
  induction a with
  | nil =>
    intro b _ hba
    cases b with
    | nil => rfl
    | cons y t => exact absurd hba (by rw [show strLe (y :: t) [] = false from rfl]; simp)
  | cons x s ih =>
    intro b hab hba
    cases b with
    | nil => exact absurd hab (by rw [show strLe (x :: s) [] = false from rfl]; simp)
    | cons y t =>
      rw [strLe_cons] at hab hba
      rcases lt_trichotomy x y with h | h | h
      · rw [if_neg (lt_asymm h), if_pos h] at hba
        exact absurd hba (by simp)
      · subst h
        rw [if_neg (lt_irrefl x), if_neg (lt_irrefl x)] at hab hba
        rw [ih t hab hba]
      · rw [if_neg (lt_asymm h), if_pos h] at hab
        exact absurd hab (by simp)

theorem strLe_trans : ∀ a b c : List Char,
    strLe a b = true → strLe b c = true → strLe a c = true := by
  intro a
  induction a with
  | nil => intro b c _ _; rfl
  | cons x s ih =>
    intro b c hab hbc
    cases b with
    | nil => exact absurd hab (by rw [show strLe (x :: s) [] = false from rfl]; simp)
    | cons y t =>
      cases c with
      | nil => exact absurd hbc (by rw [show strLe (y :: t) [] = false from rfl]; simp)
      | cons z u =>
        rw [strLe_cons] at hab hbc ⊢
        rcases lt_trichotomy x y with h1 | h1 | h1
        · rcases lt_trichotomy y z with h2 | h2 | h2
          · rw [if_pos (lt_trans h1 h2)]
          · subst h2; rw [if_pos h1]
          · rw [if_neg (lt_asymm h2), if_pos h2] at hbc
            exact absurd hbc (by simp)
        · subst h1
          rw [if_neg (lt_irrefl x), if_neg (lt_irrefl x)] at hab
          rcases lt_trichotomy x z with h2 | h2 | h2
          · rw [if_pos h2]
          · subst h2
            rw [if_neg (lt_irrefl x), if_neg (lt_irrefl x)] at hbc ⊢
            exact ih t u hab hbc
          · rw [if_neg (lt_asymm h2), if_pos h2] at hbc
            exact absurd hbc (by simp)
        · rw [if_neg (lt_asymm h1), if_pos h1] at hab
          exact absurd hab (by simp)

instance : IsTotal (List Char) StrLeR := ⟨strLe_total⟩

instance : IsTrans (List Char) StrLeR := ⟨strLe_trans⟩

instance : IsAntisymm (List Char) StrLeR := ⟨strLe_antisymm⟩

/-! ### Well-formedness predicates and the save/parse round trip -/

/-- Keys as they occur in any mapping produced by the parser: trim-stable,
free of `'='` and of newlines. -/
def keyWF (q : List Char) : Prop :=
  trimSpace q = q ∧ '=' ∉ q ∧ '\n' ∉ q

/-- A key that Set can store and Get can faithfully read back: well formed
and not starting the comment character. -/
def goodKey (k : List Char) : Prop :=
  keyWF k ∧ k.head? ≠ some '#'

/-- A value that survives the escape → trim → unescape pipeline unchanged:
its escaped form is trim-stable and it contains no literal backslash-n or
backslash-r two-character sequences. -/
def goodVal (v : List Char) : Prop :=
  trimSpace (escape v) = escape v ∧
    hasPair v '\\' 'n' = false ∧ hasPair v '\\' 'r' = false

/-- The value stored for key `q` after serializing `m` and parsing back. -/
def canonVal (m : VMap) (q : List Char) : List Char :=
  unescape (trimSpace (escape ((lookupV m q).getD [])))

/-- The line `save` writes for key `q` of `m` (without its final newline). -/
def entryLine (m : VMap) (q : List Char) : List Char :=
  q ++ '=' :: escape ((lookupV m q).getD [])

/-- The non-comment filter of the parser applied to a key. -/
def notComment (q : List Char) : Bool := !(q.head? == some '#')

theorem foldl_append_eq_flatMap (f : List Char → List Char) :
    ∀ (L : List (List Char)) (acc : List Char),
      L.foldl (fun buf k => buf ++ f k) acc = acc ++ L.flatMap f := by
  intro L
  induction L with
  | nil => intro acc; simp
  | cons x t ih =>
    intro acc
    rw [List.foldl_cons, ih, List.flatMap_cons, List.append_assoc]

theorem flatMap_map_list (g : List Char → List Char) (f : List Char → List Char) :
    ∀ ks : List (List Char), (ks.map f).flatMap g = ks.flatMap (fun x => g (f x)) := by
  intro ks
  induction ks with
  | nil => rfl
  | cons x t ih => rw [List.map_cons, List.flatMap_cons, List.flatMap_cons, ih]

theorem save_eq_lines (m : VMap) :
    save m = ((sortKeys m).map (entryLine m)).flatMap (fun l => l ++ ['\n']) := by
  unfold save
  rw [foldl_append_eq_flatMap, List.nil_append, flatMap_map_list]
  exact congrArg (List.flatMap (sortKeys m)) (funext fun q => by simp [entryLine])

theorem entryLine_line_ok {m : VMap} {q : List Char} (h : '\n' ∉ q) :
    '\n' ∉ entryLine m q ∧ (entryLine m q).getLast? ≠ some '\r' := by
  constructor
  · intro hmem
    unfold entryLine at hmem
    rcases List.mem_append.mp hmem with h1 | h1
    · exact h h1
    · rcases List.mem_cons.mp h1 with h2 | h2
      · exact absurd h2 (by decide)
      · exact (escape_no_ctl _).1 h2
  · unfold entryLine
    rw [List.getLast?_append_of_ne_nil _ (by simp)]
    cases hesc : escape ((lookupV m q).getD []) with
    | nil => decide
    | cons e es =>
      rw [List.getLast?_cons_cons]
      intro hlast
      rcases List.mem_getLast?_eq_getLast hlast with ⟨hne, hxeq⟩
      have hmem : '\r' ∈ e :: es := hxeq ▸ List.getLast_mem hne
      rw [← hesc] at hmem
      exact (escape_no_ctl _).2 hmem

theorem parseLine_skip_comment {m0 : VMap} {line : List Char}
    (h : line.head? = some '#') : parseLine m0 line = m0 := by
  unfold parseLine
  rw [if_pos (Or.inl h)]

theorem parseLine_entry_raw {m0 : VMap} {q : List Char} (w : List Char)
    (heq : '=' ∉ q) (hnh : q.head? ≠ some '#') :
    parseLine m0 (q ++ '=' :: w) = setKey m0 (trimSpace q) (unescape (trimSpace w)) := by
  unfold parseLine
  have hhead : (q ++ '=' :: w).head? ≠ some '#' := by
    cases q with
    | nil => simp
    | cons c t =>
      simp only [List.cons_append, List.head?_cons]
      simpa using hnh
  have htrim : trimSpace (q ++ '=' :: w) ≠ [] :=
    trimSpace_ne_nil (show '=' ∈ q ++ '=' :: w by simp) (by decide)
  rw [if_neg (by
    intro hor
    rcases hor with h1 | h1
    · exact hhead h1
    · exact htrim h1)]
  rw [splitEq_append w heq]

theorem parseLine_entry {m0 : VMap} {q : List Char} (w : List Char)
    (hq : trimSpace q = q) (heq : '=' ∉ q) (hnh : q.head? ≠ some '#') :
    parseLine m0 (q ++ '=' :: w) = setKey m0 q (unescape (trimSpace w)) := by
  rw [parseLine_entry_raw w heq hnh, hq]

theorem loadLines_entry_lines (m : VMap) :
    ∀ (ks : List (List Char)) (m0 : VMap), ks.Nodup →
      (∀ q ∈ ks, keyWF q) → (∀ q ∈ ks, lookupV m0 q = none) →
      (ks.map (entryLine m)).foldl parseLine m0 =
        m0 ++ (ks.filter notComment).map (fun q => (q, canonVal m q)) := by
  intro ks
  induction ks with
  | nil => intro m0 _ _ _; simp
  | cons q ks' ih =>
    intro m0 hnd hwf hfresh
    rw [List.map_cons, List.foldl_cons]
    rcases hwf q (List.mem_cons_self q ks') with ⟨hq, heq, _⟩
    by_cases hqc : q.head? = some '#'
    · have hline : parseLine m0 (entryLine m q) = m0 := by
        apply parseLine_skip_comment
        unfold entryLine
        cases q with
        | nil => simp at hqc
        | cons c t => simpa using hqc
      rw [hline]
      rw [ih m0 (List.Nodup.of_cons hnd) (fun x hx => hwf x (List.mem_cons_of_mem q hx))
        (fun x hx => hfresh x (List.mem_cons_of_mem q hx))]
      rw [List.filter_cons_of_neg (by simp [notComment, hqc])]
    · have hline : parseLine m0 (entryLine m q) =
          m0 ++ [(q, canonVal m q)] := by
        unfold entryLine
        rw [parseLine_entry _ hq heq hqc]
        exact setKey_of_lookup_none _ (hfresh q (List.mem_cons_self q ks'))
      rw [hline]
      have hfresh' : ∀ x ∈ ks', lookupV (m0 ++ [(q, canonVal m q)]) x = none := by
        intro x hx
        rw [lookupV_append]
        rw [hfresh x (List.mem_cons_of_mem q hx)]
        have hqx : q ≠ x := by
          intro hh
          subst hh
          exact (List.nodup_cons.mp hnd).1 hx
        simp [lookupV, hqx]
      rw [ih (m0 ++ [(q, canonVal m q)]) (List.Nodup.of_cons hnd)
        (fun x hx => hwf x (List.mem_cons_of_mem q hx)) hfresh']
      rw [List.filter_cons_of_pos (by simp [notComment, hqc])]
      rw [List.map_cons, List.append_assoc]
      rfl

theorem sortKeys_perm (m : VMap) : List.Perm (sortKeys m) (m.map Prod.fst) :=
  List.perm_insertionSort StrLeR (m.map Prod.fst)

theorem parseProps_save (m : VMap) (hk : ∀ p ∈ m, keyWF p.1) (hnd : nodupKeys m) :
    parseProps (save m) =
      ((sortKeys m).filter notComment).map (fun q => (q, canonVal m q)) := by
  have hkeys : ∀ q ∈ sortKeys m, keyWF q := by
    intro q hq
    rcases List.mem_map.mp ((sortKeys_perm m).mem_iff.mp hq) with ⟨p, hp, hpq⟩
    exact hpq ▸ hk p hp
  have hlines : ∀ l ∈ (sortKeys m).map (entryLine m),
      '\n' ∉ l ∧ l.getLast? ≠ some '\r' := by
    intro l hl
    rcases List.mem_map.mp hl with ⟨q, hq, hql⟩
    subst hql
    exact entryLine_line_ok (hkeys q hq).2.2
  unfold parseProps
  rw [save_eq_lines, splitLines_flat _ hlines]
  unfold loadLines
  exact loadLines_entry_lines m (sortKeys m) [] ((sortKeys_perm m).nodup_iff.mpr hnd)
    hkeys (fun _ _ => rfl)

theorem lookup_parseProps_save {m : VMap} (hk : ∀ p ∈ m, keyWF p.1)
    (hnd : nodupKeys m) {k v : List Char}
    (hkc : k.head? ≠ some '#') (hv : lookupV m k = some v) :
    lookupV (parseProps (save m)) k = some (unescape (trimSpace (escape v))) := by
  rw [parseProps_save m hk hnd]
  have hkmem : k ∈ sortKeys m :=
    (sortKeys_perm m).mem_iff.mpr
      (mem_keys_iff_lookup.mpr (by rw [hv]; rfl))
  have hkf : k ∈ (sortKeys m).filter notComment :=
    List.mem_filter.mpr ⟨hkmem, by simp [notComment, hkc]⟩
  rw [lookupV_map_pair _ hkf]
  unfold canonVal
  rw [hv]
  rfl

theorem loadLines_keyWF :
    ∀ (ls : List (List Char)) (m0 : VMap), (∀ l ∈ ls, '\n' ∉ l) →
      (∀ p ∈ m0, keyWF p.1) → ∀ p ∈ ls.foldl parseLine m0, keyWF p.1 := by
  intro ls
  induction ls with
  | nil => intro m0 _ h p hp; exact h p hp
  | cons l ls' ih =>
    intro m0 hnl h p hp
    rw [List.foldl_cons] at hp
    have hnl' : ∀ x ∈ ls', '\n' ∉ x := fun x hx => hnl x (List.mem_cons_of_mem l hx)
    have hstep : ∀ p ∈ parseLine m0 l, keyWF p.1 := by
      intro p' hp'
      unfold parseLine at hp'
      split at hp'
      · exact h p' hp'
      · cases hse : splitEq l with
        | none => rw [hse] at hp'; exact h p' hp'
        | some ab =>
          rcases ab with ⟨a, b⟩
          rw [hse] at hp'
          rcases mem_setKey hp' with h1 | h1
          · exact h p' h1
          · subst h1
            rcases splitEq_some hse with ⟨hea, hleq⟩
            refine ⟨trimSpace_trimSpace a, ?_, ?_⟩
            · intro hmem
              exact hea (mem_trimSpace hmem)
            · intro hmem
              have : '\n' ∈ l := by
                rw [hleq]
                exact List.mem_append.mpr (Or.inl (mem_trimSpace hmem))
              exact hnl l (List.mem_cons_self l ls') this
    exact ih (parseLine m0 l) hnl' hstep p hp

theorem parseProps_keyWF (content : List Char) :
    ∀ p ∈ parseProps content, keyWF p.1 := by
  intro p hp
  unfold parseProps loadLines at hp
  exact loadLines_keyWF (splitLines content) []
    (fun l hl => splitLines_no_newline hl) (by simp) p hp

theorem loadLines_nodup :
    ∀ (ls : List (List Char)) (m0 : VMap), nodupKeys m0 →
      nodupKeys (ls.foldl parseLine m0) := by
  intro ls
  induction ls with
  | nil => intro m0 h; exact h
  | cons l ls' ih =>
    intro m0 h
    rw [List.foldl_cons]
    apply ih
    unfold parseLine
    split
    · exact h
    · cases hse : splitEq l with
      | none => exact h
      | some ab =>
        rcases ab with ⟨a, b⟩
        exact nodupKeys_setKey _ _ h

theorem parseProps_nodup (content : List Char) : nodupKeys (parseProps content) := by
  unfold parseProps loadLines
  exact loadLines_nodup (splitLines content) [] (by simp [nodupKeys])

/-- A sequence of in-memory `Set` mutations (`m[k] = v`), oldest first. -/
def applySets (ops : List (List Char × List Char)) : VMap :=
  ops.foldl (fun m p => setKey m p.1 p.2) []

/-- A sequence of full `Set` store operations, executed one after the other
(the per-instance write lock serializes them). -/
def runSets (fs : FS) : List (List Char × List Char) → Except VarsErr FS
  | [] => .ok fs
  | p :: rest =>
    match setOp fs p.1 p.2 with
    | .ok fs' => runSets fs' rest
    | .error e => .error e

theorem applySets_nodup' :
    ∀ (ops : List (List Char × List Char)) (m0 : VMap), nodupKeys m0 →
      nodupKeys (ops.foldl (fun m p => setKey m p.1 p.2) m0) := by
  intro ops
  induction ops with
  | nil => intro m0 h; exact h
  | cons p t ih =>
    intro m0 h
    rw [List.foldl_cons]
    exact ih _ (nodupKeys_setKey _ _ h)

theorem applySets_nodup (ops : List (List Char × List Char)) :
    nodupKeys (applySets ops) :=
  applySets_nodup' ops [] (by simp [nodupKeys])

/-! ### Claim theorems -/

/-- C2 (counterexample): `unescape (escape s) = s` fails for the
two-character string `\n` (a literal backslash followed by `n`), which
`escape` leaves untouched and `unescape` collapses to a newline. -/
theorem escape_roundtrip_counterexample :
    unescape (escape ['\\', 'n']) ≠ ['\\', 'n'] := by decide

/-- C2 (amended): for every string `s` that contains no literal
backslash-`n` and no literal backslash-`r` two-character sequence —
in particular every backslash-free string — `unescape (escape s) = s`,
including strings with embedded newline and carriage-return bytes. -/
theorem escape_roundtrip (s : List Char)
    (hn : hasPair s '\\' 'n' = false) (hr : hasPair s '\\' 'r' = false) :
    unescape (escape s) = s :=
  unescape_escape s hn hr

/-- Witness for C2 (amended) at the multi-line string `"a\nb\rc"`. -/
theorem escape_roundtrip_witness :
    hasPair ("a\nb\rc".toList) '\\' 'n' = false ∧
    hasPair ("a\nb\rc".toList) '\\' 'r' = false ∧
    unescape (escape ("a\nb\rc".toList)) = "a\nb\rc".toList :=
  ⟨by decide, by decide, escape_roundtrip ("a\nb\rc".toList) (by decide) (by decide)⟩

/-- C4: the parser run over a list of scanned lines (1) drops a final line
that is blank after trimming, (2) drops a final comment line, (3) silently
drops a final line containing no `=`, (4) parses any other final line by
splitting at the first `=`, trimming both segments and unescaping the value,
overwriting any earlier binding of the key, and (5) consequently a lookup of
that key returns the value from this last occurrence. -/
theorem load_parsing_spec :
    (∀ (L : List (List Char)) (line : List Char), trimSpace line = [] →
        loadLines (L ++ [line]) = loadLines L) ∧
    (∀ (L : List (List Char)) (line : List Char), line.head? = some '#' →
        loadLines (L ++ [line]) = loadLines L) ∧
    (∀ (L : List (List Char)) (line : List Char), '=' ∉ line →
        loadLines (L ++ [line]) = loadLines L) ∧
    (∀ (L : List (List Char)) (a b : List Char), '=' ∉ a →
        (a ++ '=' :: b).head? ≠ some '#' →
        loadLines (L ++ [a ++ '=' :: b]) =
          setKey (loadLines L) (trimSpace a) (unescape (trimSpace b))) ∧
    (∀ (L : List (List Char)) (a b : List Char), '=' ∉ a →
        (a ++ '=' :: b).head? ≠ some '#' →
        lookupV (loadLines (L ++ [a ++ '=' :: b])) (trimSpace a) =
          some (unescape (trimSpace b))) := by
  have hstep : ∀ (L : List (List Char)) (line : List Char),
      loadLines (L ++ [line]) = parseLine (loadLines L) line := by
    intro L line
    unfold loadLines
    rw [List.foldl_append, List.foldl_cons, List.foldl_nil]
  refine ⟨?_, ?_, ?_, ?_, ?_⟩
  · intro L line h
    rw [hstep]
    unfold parseLine
    rw [if_pos (Or.inr h)]
  · intro L line h
    rw [hstep]
    exact parseLine_skip_comment h
  · intro L line h
    rw [hstep]
    unfold parseLine
    split
    · rfl
    · rw [splitEq_none h]
  · intro L a b hea hh
    rw [hstep]
    have hq : a.head? ≠ some '#' := by
      cases a with
      | nil => simp
      | cons c t => simpa using hh
    exact parseLine_entry_raw b hea hq
  · intro L a b hea hh
    have h4 : loadLines (L ++ [a ++ '=' :: b]) =
        setKey (loadLines L) (trimSpace a) (unescape (trimSpace b)) := by
      rw [hstep]
      have hq : a.head? ≠ some '#' := by
        cases a with
        | nil => simp
        | cons c t => simpa using hh
      exact parseLine_entry_raw b hea hq
    rw [h4, lookupV_setKey_self]

/-- Witness for C4 at concrete lines: a blank line is dropped, and a second
line for key `k` overrides the first. -/
theorem load_parsing_spec_witness :
    loadLines ([] ++ [" ".toList]) = loadLines [] ∧
    lookupV (loadLines (["k=1".toList] ++ [("k".toList) ++ '=' :: ("2".toList)]))
        (trimSpace ("k".toList)) = some (unescape (trimSpace ("2".toList))) :=
  ⟨load_parsing_spec.1 [] (" ".toList) (by decide),
   load_parsing_spec.2.2.2.2 ["k=1".toList] ("k".toList) ("2".toList)
     (by decide) (by decide)⟩

/-- C6: path resolution fails with `emptyNamespace` on an empty namespace,
`invalidNamespace` when the namespace has a character outside
`[a-zA-Z0-9._-]`, and `invalidScope` when the scope is non-empty and has a
path separator or a character outside the class; all of this independently
of the state-root resolution (so before any filesystem interaction).  An
empty scope is accepted, and on success the directory is `<root>/<ns>`
respectively `<root>/<ns>/<scope>`. -/
theorem basePath_spec :
    (∀ (scope : List Char) (sd : Option (List Char)),
        basePath [] scope sd = .error .emptyNamespace) ∧
    (∀ (ns scope : List Char) (sd : Option (List Char)), ns ≠ [] →
        (∃ c ∈ ns, validNameChar c = false) →
        basePath ns scope sd = .error .invalidNamespace) ∧
    (∀ (ns scope : List Char) (sd : Option (List Char)), validName ns = true →
        scope ≠ [] →
        ('/' ∈ scope ∨ '\\' ∈ scope ∨ ∃ c ∈ scope, validNameChar c = false) →
        basePath ns scope sd = .error .invalidScope) ∧
    (∀ (ns root : List Char), validName ns = true →
        basePath ns [] (some root) = .ok (root ++ '/' :: ns)) ∧
    (∀ (ns scope root : List Char), validName ns = true →
        validName scope = true →
        basePath ns scope (some root) = .ok (root ++ '/' :: ns ++ '/' :: scope)) := by
  refine ⟨?_, ?_, ?_, ?_, ?_⟩
  · intro scope sd
    unfold basePath
    rw [if_pos rfl]
  · intro ns scope sd hne hbad
    have hv : validName ns = false := by
      rcases hbad with ⟨c, hc, hcf⟩
      cases h : validName ns with
      | false => rfl
      | true =>
        unfold validName at h
        rw [Bool.and_eq_true, List.all_eq_true] at h
        rw [h.2 c hc] at hcf
        exact absurd hcf (by simp)
    unfold basePath
    rw [if_neg hne, if_pos (by simp [hv])]
  · intro ns scope sd hns hne hbad
    unfold basePath
    rw [if_neg (by
      intro h
      subst h
      exact absurd hns (by simp [validName]))]
    rw [if_neg (by simp [hns])]
    by_cases hsep : '/' ∈ scope ∨ '\\' ∈ scope
    · rw [if_pos ⟨hne, hsep⟩]
    · have hbadc : ∃ c ∈ scope, validNameChar c = false := by
        rcases hbad with h | h | h
        · exact absurd (Or.inl h) hsep
        · exact absurd (Or.inr h) hsep
        · exact h
      have hv : validName scope = false := by
        rcases hbadc with ⟨c, hc, hcf⟩
        cases h : validName scope with
        | false => rfl
        | true =>
          unfold validName at h
          rw [Bool.and_eq_true, List.all_eq_true] at h
          rw [h.2 c hc] at hcf
          exact absurd hcf (by simp)
      rw [if_neg (fun h => hsep h.2), if_pos ⟨hne, by simp [hv]⟩]
  · intro ns root hns
    unfold basePath
    rw [if_neg (by
      intro h
      subst h
      exact absurd hns (by simp [validName]))]
    rw [if_neg (by simp [hns])]
    rw [if_neg (by simp), if_neg (by simp)]
    simp
  · intro ns scope root hns hsc
    have hnsc : scope ≠ [] := by
      intro h
      subst h
      exact absurd hsc (by simp [validName])
    have hall : ∀ c ∈ scope, validNameChar c = true := by
      unfold validName at hsc
      rw [Bool.and_eq_true, List.all_eq_true] at hsc
      exact hsc.2
    have hnosep : ¬ ('/' ∈ scope ∨ '\\' ∈ scope) := by
      intro h
      rcases h with h | h
      · exact absurd (hall '/' h) (by decide)
      · exact absurd (hall '\\' h) (by decide)
    unfold basePath
    rw [if_neg (by
      intro h
      subst h
      exact absurd hns (by simp [validName]))]
    rw [if_neg (by simp [hns])]
    rw [if_neg (by
      intro h
      exact hnosep h.2)]
    rw [if_neg (by
      intro h
      rw [hsc] at h
      exact absurd h.2 (by simp))]
    rw [if_neg hnsc]

/-- Witness for C6 at concrete inputs: namespace `"pomo"`, scope `"timer"`,
root `"/r"`; and the failing inputs with an empty and an invalid namespace
and an invalid scope. -/
theorem basePath_spec_witness :
    basePath [] ("x".toList) none = .error .emptyNamespace ∧
    basePath ("a!b".toList) [] none = .error .invalidNamespace ∧
    basePath ("pomo".toList) ("x/y".toList) none = .error .invalidScope ∧
    basePath ("pomo".toList) [] (some ("/r".toList)) =
      .ok (("/r".toList) ++ '/' :: ("pomo".toList)) ∧
    basePath ("pomo".toList) ("timer".toList) (some ("/r".toList)) =
      .ok (("/r".toList) ++ '/' :: ("pomo".toList) ++ '/' :: ("timer".toList)) :=
  ⟨basePath_spec.1 ("x".toList) none,
   basePath_spec.2.1 ("a!b".toList) [] none (by decide) ⟨'!', by decide, by decide⟩,
   basePath_spec.2.2.1 ("pomo".toList) ("x/y".toList) none (by decide) (by decide)
     (Or.inl (by decide)),
   basePath_spec.2.2.2.1 ("pomo".toList) ("/r".toList) (by decide),
   basePath_spec.2.2.2.2 ("pomo".toList) ("timer".toList) ("/r".toList)
     (by decide) (by decide)⟩

/-- C10: constructing a store with more than one scope token halts (the
model returns `none` where the code panics); with zero or one scope token
construction returns a handle normally. -/
theorem newVars_strict_scope :
    (∀ (ns : List Char) (args : List (List Char)), 1 < args.length →
        newVars ns args = none) ∧
    (∀ (ns : List Char) (args : List (List Char)), args.length ≤ 1 →
        newVars ns args = some { ns := ns, scope := args.headD [] }) := by
  constructor
  · intro ns args h
    unfold newVars
    rw [if_pos h]
  · intro ns args h
    unfold newVars
    rw [if_neg (by omega)]

/-- Witness for C10: two scope tokens halt, zero and one return normally. -/
theorem newVars_strict_scope_witness :
    newVars ("a".toList) [("b".toList), ("c".toList)] = none ∧
    newVars ("a".toList) [] = some { ns := ("a".toList), scope := [] } ∧
    newVars ("a".toList) [("b".toList)] =
      some { ns := ("a".toList), scope := ("b".toList) } :=
  ⟨newVars_strict_scope.1 ("a".toList) [("b".toList), ("c".toList)] (by decide),
   newVars_strict_scope.2 ("a".toList) [] (by decide),
   newVars_strict_scope.2 ("a".toList) [("b".toList)] (by decide)⟩

/-- C7: `Init` creates the backing directory and creates the property file
empty when missing, keeps existing content otherwise; it is idempotent; and
a second `Init` after a successful `Set` leaves the written file untouched
(no truncation of data written between the two calls). -/
theorem init_idempotent :
    (∀ fs : FS, (initOp fs).dirExists = true ∧
        (initOp fs).file = some (fs.file.getD [])) ∧
    (∀ fs : FS, fs.file = none → (initOp fs).file = some []) ∧
    (∀ (fs : FS) (c : List Char), fs.file = some c → (initOp fs).file = some c) ∧
    (∀ fs : FS, initOp (initOp fs) = initOp fs) ∧
    (∀ (fs : FS) (k v : List Char) (fs' : FS),
        setOp (initOp fs) k v = .ok fs' → initOp fs' = fs') := by
  refine ⟨?_, ?_, ?_, ?_, ?_⟩
  · intro fs; exact ⟨rfl, rfl⟩
  · intro fs h; simp [initOp, h]
  · intro fs c h; simp [initOp, h]
  · intro fs; rfl
  · intro fs k v fs' h
    have h2 : setOp (initOp fs) k v =
        .ok (⟨true, some (save (setKey (parseProps (fs.file.getD [])) k v))⟩ : FS) := rfl
    rw [h2, Except.ok.injEq] at h
    rw [← h]
    rfl

/-- Witness for C7 at a concrete store: file absent, then `Init`, `Set`,
and a second `Init` preserving the written content. -/
theorem init_idempotent_witness :
    (initOp ⟨false, none⟩).file = some [] ∧
    initOp (initOp ⟨false, none⟩) = initOp ⟨false, none⟩ ∧
    (∀ fs', setOp (initOp ⟨false, none⟩) ("k".toList) ("v".toList) = .ok fs' →
      initOp fs' = fs') :=
  ⟨init_idempotent.2.1 ⟨false, none⟩ rfl,
   init_idempotent.2.2.2.1 ⟨false, none⟩,
   fun fs' h => init_idempotent.2.2.2.2 ⟨false, none⟩ ("k".toList) ("v".toList) fs' h⟩

/-- C3 (behavior of the code): with the backing directory absent, `Get`,
`Set`, `Unset` and `All` all fail with the not-initialized error; with the
directory present but the property file absent, `Get`, `Unset` and `All`
fail with the not-initialized error — and so does `Set`, because the fresh
`fmt.Errorf` produced by `load` never satisfies `os.IsNotExist`, so the
tolerant branch of `Set` is unreachable and `Set` does not start from an
empty mapping as the specification requires. -/
theorem notInit_gate :
    (∀ (f : Option (List Char)) (k v : List Char),
        getOp ⟨false, f⟩ k = .error .notInitializedDir ∧
        setOp ⟨false, f⟩ k v = .error .notInitializedDir ∧
        unsetOp ⟨false, f⟩ k = .error .notInitializedDir ∧
        allOp ⟨false, f⟩ = .error .notInitializedDir) ∧
    (∀ k v : List Char,
        getOp ⟨true, none⟩ k = .error .notInitializedFile ∧
        setOp ⟨true, none⟩ k v = .error .notInitializedFile ∧
        unsetOp ⟨true, none⟩ k = .error .notInitializedFile ∧
        allOp ⟨true, none⟩ = .error .notInitializedFile) := by
  constructor
  · intro f k v
    exact ⟨rfl, rfl, rfl, rfl⟩
  · intro k v
    exact ⟨rfl, rfl, rfl, rfl⟩

/-- C8: on an initialized store, `Unset` always succeeds — also when the key
is absent from the mapping, in which case the mapping is written back
unchanged — and the deletion leaves the binding of every other key in the
mapping untouched. -/
theorem unset_spec :
    ∀ (fs : FS) (F k : List Char), fs.dirExists = true → fs.file = some F →
      ∃ fs', unsetOp fs k = .ok fs' ∧
        fs'.file = some (save (delKey (parseProps F) k)) ∧
        (lookupV (parseProps F) k = none → delKey (parseProps F) k = parseProps F) ∧
        (∀ k', k' ≠ k →
          lookupV (delKey (parseProps F) k) k' = lookupV (parseProps F) k') := by
  intro fs F k hdir hfile
  refine ⟨{ fs with file := some (save (delKey (parseProps F) k)) }, ?_, rfl, ?_, ?_⟩
  · unfold unsetOp loadOp
    rw [hfile, if_pos hdir]
    rfl
  · intro h
    exact delKey_of_lookup_none h
  · intro k' h
    exact lookupV_delKey_ne _ k k' h

/-- Witness for C8: unsetting the absent key `"z"` on a store holding
`a=1` succeeds and leaves the binding of `"a"` unchanged. -/
theorem unset_spec_witness :
    ∃ fs', unsetOp ⟨true, some ("a=1\n".toList)⟩ ("z".toList) = .ok fs' ∧
      fs'.file = some (save (delKey (parseProps ("a=1\n".toList)) ("z".toList))) ∧
      (lookupV (parseProps ("a=1\n".toList)) ("z".toList) = none →
        delKey (parseProps ("a=1\n".toList)) ("z".toList) = parseProps ("a=1\n".toList)) ∧
      (∀ k', k' ≠ ("z".toList) →
        lookupV (delKey (parseProps ("a=1\n".toList)) ("z".toList)) k' =
          lookupV (parseProps ("a=1\n".toList)) k') :=
  unset_spec ⟨true, some ("a=1\n".toList)⟩ ("a=1\n".toList) ("z".toList) rfl rfl

theorem keys_map_pair (ks : List (List Char)) (f : List Char → List Char) :
    (ks.map (fun q => (q, f q))).map Prod.fst = ks := by
  rw [List.map_map]
  rw [show (Prod.fst ∘ fun q : List Char => (q, f q)) = fun q : List Char => q from rfl]
  exact List.map_id' ks

theorem filter_notComment_of_good {m : VMap} (hg : ∀ p ∈ m, goodKey p.1) :
    (sortKeys m).filter notComment = sortKeys m := by
  rw [List.filter_eq_self]
  intro q hq
  rcases List.mem_map.mp ((sortKeys_perm m).mem_iff.mp hq) with ⟨p', hp', hpq⟩
  have h2 := (hg p' hp').2
  rw [hpq] at h2
  simp [notComment, h2]

theorem runSets_good :
    ∀ (ops : List (List Char × List Char)) (m : VMap),
      (∀ p ∈ ops, goodKey p.1) →
      (∀ p ∈ m, goodKey p.1) → nodupKeys m →
      ((m.map Prod.fst) ++ ops.map Prod.fst).Nodup →
      ∃ m' : VMap, runSets ⟨true, some (save m)⟩ ops = .ok ⟨true, some (save m')⟩ ∧
        m'.length = m.length + ops.length ∧
        (∀ p ∈ m', goodKey p.1) ∧ nodupKeys m' := by
  intro ops
  induction ops with
  | nil =>
    intro m _ hg hnd _
    exact ⟨m, rfl, by simp, hg, hnd⟩
  | cons p ops' ih =>
    intro m hops hg hnd hbig
    rcases p with ⟨k, v⟩
    have hkgood : goodKey k := hops (k, v) (List.mem_cons_self _ _)
    have hops' : ∀ p ∈ ops', goodKey p.1 :=
      fun p hp => hops p (List.mem_cons_of_mem _ hp)
    have hkWF : ∀ p ∈ m, keyWF p.1 := fun p hp => (hg p hp).1
    have hmP : parseProps (save m) = (sortKeys m).map (fun q => (q, canonVal m q)) := by
      rw [parseProps_save m hkWF hnd, filter_notComment_of_good hg]
    set mP := parseProps (save m) with hmPdef
    have hkeysP : mP.map Prod.fst = sortKeys m := by
      rw [hmP]; exact keys_map_pair _ _
    have hlenP : mP.length = m.length := by
      rw [hmP, List.length_map, (sortKeys_perm m).length_eq, List.length_map]
    have hgP : ∀ p ∈ mP, goodKey p.1 := by
      intro p hp
      rw [hmP] at hp
      rcases List.mem_map.mp hp with ⟨q, hq, hqp⟩
      rcases List.mem_map.mp ((sortKeys_perm m).mem_iff.mp hq) with ⟨p', hp', hpq⟩
      rw [← hqp]
      rw [show ((q, canonVal m q) : List Char × List Char).1 = q from rfl]
      rw [← hpq]
      exact hg p' hp'
    have hndP : nodupKeys mP := by
      unfold nodupKeys
      rw [hkeysP]
      exact (sortKeys_perm m).nodup_iff.mpr hnd
    rw [List.map_cons] at hbig
    have hkfresh : lookupV mP k = none := by
      apply lookup_none_of_not_mem
      rw [hkeysP]
      intro hk
      exact List.disjoint_of_nodup_append hbig
        ((sortKeys_perm m).mem_iff.mp hk) (List.mem_cons_self _ _)
    set m1 := setKey mP k v with hm1def
    have hm1 : m1 = mP ++ [(k, v)] := setKey_of_lookup_none v hkfresh
    have hg1 : ∀ p ∈ m1, goodKey p.1 := by
      intro p hp
      rw [hm1] at hp
      rcases List.mem_append.mp hp with h1 | h1
      · exact hgP p h1
      · rw [List.mem_singleton] at h1
        rw [h1]
        exact hkgood
    have hnd1 : nodupKeys m1 := nodupKeys_setKey _ _ hndP
    have hlen1 : m1.length = m.length + 1 := by
      rw [hm1, List.length_append, hlenP]
      rfl
    have hkeys1 : m1.map Prod.fst = sortKeys m ++ [k] := by
      rw [hm1, List.map_append, hkeysP]
      rfl
    have hbig1 : ((m1.map Prod.fst) ++ ops'.map Prod.fst).Nodup := by
      rw [hkeys1]
      have hperm : List.Perm ((sortKeys m ++ [k]) ++ ops'.map Prod.fst)
          (m.map Prod.fst ++ (k :: ops'.map Prod.fst)) := by
        rw [List.append_assoc]
        rw [show [k] ++ ops'.map Prod.fst = k :: ops'.map Prod.fst from rfl]
        exact ((sortKeys_perm m).append_right (k :: ops'.map Prod.fst))
      exact hperm.symm.nodup hbig
    rcases ih m1 hops' hg1 hnd1 hbig1 with ⟨m', hrun, hlen, hg', hnd'⟩
    refine ⟨m', ?_, ?_, hg', hnd'⟩
    · show runSets ⟨true, some (save m)⟩ ((k, v) :: ops') = .ok ⟨true, some (save m')⟩
      have hstep : setOp ⟨true, some (save m)⟩ k v =
          .ok ⟨true, some (save m1)⟩ := rfl
      show (match setOp ⟨true, some (save m)⟩ k v with
            | .ok fs' => runSets fs' ops'
            | .error e => .error e) = .ok ⟨true, some (save m')⟩
      rw [hstep]
      exact hrun
    · rw [hlen, hlen1, List.length_cons]
      omega

/-- C9 (counterexample): two serialized `Set` calls with the two distinct
keys `" a"` and `"a"` on a freshly initialized store, followed by `All`,
yield a single entry: the first binding is lost because the key is trimmed
when the file is re-parsed.  Under the write lock the concurrent execution
of the claim is exactly such a serialization, so the claimed count of
exactly N entries fails already without any interleaving. -/
theorem set_lost_update_counterexample :
    (" a".toList ≠ "a".toList) ∧
    runSets ⟨true, some []⟩
        [((" a").toList, ("1").toList), (("a").toList, ("2").toList)] =
      .ok ⟨true, some ("a=2\n".toList)⟩ ∧
    allOp ⟨true, some ("a=2\n".toList)⟩ = .ok [("a".toList, "2".toList)] :=
  ⟨by decide, by decide, by decide⟩

/-- C9 (amended): N `Set` calls with N distinct keys against one store
instance, executed in any serial order — the per-instance write lock makes
each concurrent schedule equivalent to such a serialization, which is the
part of the claim expressible in this embedding — starting from a freshly
initialized store, followed by `All()`, yield exactly N entries, provided
each key is trim-stable, contains no `'='` and no newline, and does not
start with `'#'`. -/
theorem set_serial_no_lost_updates (ops : List (List Char × List Char))
    (hnd : (ops.map Prod.fst).Nodup) (hg : ∀ p ∈ ops, goodKey p.1) :
    ∃ (fs' : FS) (m : VMap), runSets ⟨true, some []⟩ ops = .ok fs' ∧
      allOp fs' = .ok m ∧ m.length = ops.length := by
  have h0 : ((([] : VMap).map Prod.fst) ++ ops.map Prod.fst).Nodup := by simpa using hnd
  rcases runSets_good ops [] hg (by simp) (by simp [nodupKeys]) h0 with
    ⟨m', hrun, hlen, hg', hnd'⟩
  refine ⟨⟨true, some (save m')⟩, parseProps (save m'), ?_, rfl, ?_⟩
  · exact hrun
  · have hkWF : ∀ p ∈ m', keyWF p.1 := fun p hp => (hg' p hp).1
    rw [parseProps_save m' hkWF hnd', filter_notComment_of_good hg',
      List.length_map, (sortKeys_perm m').length_eq, List.length_map, hlen]
    simp

/-- Witness for C9 (amended) with two well-formed keys. -/
theorem set_serial_no_lost_updates_witness :
    ∃ (fs' : FS) (m : VMap),
      runSets ⟨true, some []⟩
          [(("a").toList, ("1").toList), (("b").toList, ("2").toList)] = .ok fs' ∧
      allOp fs' = .ok m ∧
      m.length = [(("a").toList, ("1").toList), (("b").toList, ("2").toList)].length :=
  set_serial_no_lost_updates _ (by decide) (by
    intro p hp
    rcases List.mem_cons.mp hp with h | h
    · rw [h]; exact ⟨⟨by decide, by decide, by decide⟩, by decide⟩
    · rw [List.mem_singleton.mp h]; exact ⟨⟨by decide, by decide, by decide⟩, by decide⟩)

/-- C1 (counterexample): on a freshly initialized store, `Set "k" " "`
succeeds, but `Get "k"` returns the empty string instead of the stored
one-space value, because the parser trims the value segment. -/
theorem set_get_counterexample :
    setOp ⟨true, some []⟩ ("k".toList) (" ".toList) =
      .ok ⟨true, some ("k= \n".toList)⟩ ∧
    getOp ⟨true, some ("k= \n".toList)⟩ ("k".toList) = .ok [] ∧
    ([] : List Char) ≠ " ".toList :=
  ⟨by decide, by decide, by decide⟩

/-- C1 (amended): for every initialized store (backing directory present and
property file existing, with arbitrary prior content), and every key that is
trim-stable, free of `'='` and newlines and not starting with `'#'`, and
every value whose escaped form is trim-stable and that contains no literal
backslash-`n`/backslash-`r` pairs — in particular every multi-line value
made of newline-separated non-blank-padded lines — after `Set(key, value)`
succeeds, `Get(key)` returns exactly the stored value.  `Get` here reads
only the resulting filesystem state, so the same holds for a second store
constructed with the same namespace and scope. -/
theorem set_get_roundtrip (fs : FS) (F k v : List Char)
    (hdir : fs.dirExists = true) (hfile : fs.file = some F)
    (hk : goodKey k) (hv : goodVal v) :
    ∃ fs', setOp fs k v = .ok fs' ∧ getOp fs' k = .ok v := by
  have hstep : setOp fs k v =
      .ok ⟨true, some (save (setKey (parseProps F) k v))⟩ := by
    unfold setOp loadOp
    rw [hfile, if_pos hdir, hdir]
    rfl
  set m' := setKey (parseProps F) k v with hm'def
  have hwfm' : ∀ p ∈ m', keyWF p.1 := by
    intro p hp
    rcases mem_setKey hp with h1 | h1
    · exact parseProps_keyWF F p h1
    · rw [h1]
      exact hk.1
  have hndm' : nodupKeys m' := nodupKeys_setKey _ _ (parseProps_nodup F)
  have hvk : lookupV m' k = some v := lookupV_setKey_self _ _ _
  have hlk := lookup_parseProps_save hwfm' hndm' hk.2 hvk
  have hval : unescape (trimSpace (escape v)) = v := by
    rw [hv.1]
    exact unescape_escape v hv.2.1 hv.2.2
  refine ⟨⟨true, some (save m')⟩, hstep, ?_⟩
  have hget : getOp ⟨true, some (save m')⟩ k =
      (match lookupV (parseProps (save m')) k with
       | some w => .ok w
       | none => .error (.keyNotFound k)) := rfl
  rw [hget, hlk, hval]

/-- Witness for C1 (amended): the end-to-end scenario of the specification,
storing and retrieving a multi-line PEM-style value. -/
theorem set_get_roundtrip_witness :
    ∃ fs', setOp ⟨true, some []⟩ ("secret_key".toList)
        ("-----BEGIN KEY-----\nABC\n-----END KEY-----".toList) = .ok fs' ∧
      getOp fs' ("secret_key".toList) =
        .ok ("-----BEGIN KEY-----\nABC\n-----END KEY-----".toList) :=
  set_get_roundtrip ⟨true, some []⟩ [] ("secret_key".toList)
    ("-----BEGIN KEY-----\nABC\n-----END KEY-----".toList) rfl rfl
    ⟨⟨by decide, by decide, by decide⟩, by decide⟩
    ⟨by decide, by decide, by decide⟩

/-- C5: `save` writes, for each entry, the chunk `key=escaped_value`
followed by a newline, with the keys in lexicographic order: the key
sequence is sorted under `strLe` and is a permutation of the mapping's keys,
and (for mappings whose keys contain no raw newline, as all parser- and
`Set`-produced string keys of interest) the scanned lines of the output are
exactly one line per entry of that form.  Consequently any two sequences of
`Set` mutations producing the same final mapping yield byte-identical file
content, independent of insertion order. -/
theorem save_sorted_deterministic :
    (∀ m : VMap, List.Sorted StrLeR (sortKeys m) ∧
        List.Perm (sortKeys m) (m.map Prod.fst)) ∧
    (∀ m : VMap, (∀ p ∈ m, '\n' ∉ p.1) →
        splitLines (save m) = (sortKeys m).map (entryLine m)) ∧
    (∀ ops₁ ops₂ : List (List Char × List Char),
        (∀ k, lookupV (applySets ops₁) k = lookupV (applySets ops₂) k) →
        save (applySets ops₁) = save (applySets ops₂)) := by
  refine ⟨?_, ?_, ?_⟩
  · intro m
    exact ⟨List.sorted_insertionSort StrLeR (m.map Prod.fst), sortKeys_perm m⟩
  · intro m h
    rw [save_eq_lines]
    apply splitLines_flat
    intro l hl
    rcases List.mem_map.mp hl with ⟨q, hq, hql⟩
    subst hql
    apply entryLine_line_ok
    rcases List.mem_map.mp ((sortKeys_perm m).mem_iff.mp hq) with ⟨p', hp', hpq⟩
    rw [← hpq]
    exact h p' hp'
  · intro ops₁ ops₂ hlook
    have hnd₁ := applySets_nodup ops₁
    have hnd₂ := applySets_nodup ops₂
    have hmem : ∀ q, q ∈ (applySets ops₁).map Prod.fst ↔
        q ∈ (applySets ops₂).map Prod.fst := by
      intro q
      rw [mem_keys_iff_lookup, mem_keys_iff_lookup, hlook q]
    have hperm : List.Perm ((applySets ops₁).map Prod.fst)
        ((applySets ops₂).map Prod.fst) :=
      (List.perm_ext_iff_of_nodup hnd₁ hnd₂).mpr hmem
    have hsorteq : sortKeys (applySets ops₁) = sortKeys (applySets ops₂) :=
      List.eq_of_perm_of_sorted
        ((sortKeys_perm _).trans (hperm.trans (sortKeys_perm _).symm))
        (List.sorted_insertionSort _ _) (List.sorted_insertionSort _ _)
    rw [save_eq_lines, save_eq_lines, hsorteq]
    have hfun : ∀ q ∈ sortKeys (applySets ops₂),
        entryLine (applySets ops₁) q = entryLine (applySets ops₂) q := by
      intro q _
      unfold entryLine
      rw [hlook q]
    rw [List.map_congr_left hfun]

/-- Witness for C5: the two insertion orders of the bindings `a=1`, `b=2`
serialize to the same bytes; the line-shape clause at a singleton map. -/
theorem save_sorted_deterministic_witness :
    save (applySets [(("a").toList, ("1").toList), (("b").toList, ("2").toList)]) =
      save (applySets [(("b").toList, ("2").toList), (("a").toList, ("1").toList)]) ∧
    splitLines (save [(("a").toList, ("1").toList)]) =
      (sortKeys [(("a").toList, ("1").toList)]).map
        (entryLine [(("a").toList, ("1").toList)]) := by
  constructor
  · apply save_sorted_deterministic.2.2
    intro k
    show lookupV [(['a'], ['1']), (['b'], ['2'])] k =
      lookupV [(['b'], ['2']), (['a'], ['1'])] k
    by_cases h1 : (['a'] : List Char) = k
    · by_cases h2 : (['b'] : List Char) = k
      · exact absurd (h1.trans h2.symm) (by decide)
      · simp [lookupV, h1, h2]
    · by_cases h2 : (['b'] : List Char) = k
      · simp [lookupV, h1, h2]
      · simp [lookupV, h1, h2]
  · exact save_sorted_deterministic.2.1 [(("a").toList, ("1").toList)] (by
      intro p hp
      rw [List.mem_singleton.mp hp]
      decide)
